import Mathlib

/-!
Verification of the shlex shell-style tokenizer (google/shlex).

The repository holds two revisions of the same Go file (src/shlex.go and
src/unnamed/part_000).  Their scanner state machines are character-for-character
identical; the only functional difference is the set of "ordinary" characters:
src/shlex.go's RUNE_CHAR lacks the pipe character, src/unnamed/part_000's
charRunes includes it.  We therefore embed the machine once, parameterised by
the classifier function (as in the Go source, where the Tokenizer holds a
classifier field), and instantiate it twice.

End of input is modelled as the empty input list (Go: ReadRune returning io.EOF
makes the rune class eofRuneClass).  The unbounded Go loops in Lexer.Next and
Split are modelled with an explicit fuel argument; the public entry points pass
fuel input.length + 1, which is proved sufficient (fuel-stability lemmas below
show the result is independent of the fuel once it exceeds the input length).
-/

set_option maxRecDepth 4000

namespace Shlex

/-- TokenType is a top-level token classification (shlex.go / part_000). -/
inductive TokenType where
  | UnknownToken : TokenType
  | WordToken : TokenType
  | SpaceToken : TokenType
  | CommentToken : TokenType
deriving DecidableEq

/-- Token is a (type, value) pair representing a lexographical token. -/
structure Token where
  tokenType : TokenType
  value : String
deriving DecidableEq

/-- runeTokenClass: the classification of a single character
(part_000; shlex.go calls it RuneTokenType with the same constructors). -/
inductive runeTokenClass where
  | unknownRuneClass : runeTokenClass
  | charRuneClass : runeTokenClass
  | spaceRuneClass : runeTokenClass
  | escapingQuoteRuneClass : runeTokenClass
  | nonEscapingQuoteRuneClass : runeTokenClass
  | escapeRuneClass : runeTokenClass
  | commentRuneClass : runeTokenClass
  | eofRuneClass : runeTokenClass
deriving DecidableEq

/-- Lexer state machine states (identical in both files). -/
inductive lexerState where
  | startState : lexerState
  | inWordState : lexerState
  | escapingState : lexerState
  | escapingQuotedState : lexerState
  | quotingEscapingState : lexerState
  | quotingState : lexerState
  | commentState : lexerState
deriving DecidableEq

/-- RUNE_CHAR of src/shlex.go: the ordinary characters, without a pipe. -/
def RUNE_CHAR : String :=
  "abcdefghijklmnopqrstuvwxyzABCDEFGHIJKLMNOPQRSTUVWXYZ0123456789._-,"

/-- charRunes of src/unnamed/part_000: the ordinary characters, with a pipe. -/
def charRunes : String :=
  "abcdefghijklmnopqrstuvwxyzABCDEFGHIJKLMNOPQRSTUVWXYZ0123456789._-,|"

/-- spaceRunes / RUNE_SPACE: ASCII whitespace. -/
def spaceRunes : String := " \t\r\n"

/-- The escaping quote character, a double quote. -/
def escapingQuoteChar : Char := Char.ofNat 34

/-- The non-escaping quote character, a single quote. -/
def nonEscapingQuoteChar : Char := Char.ofNat 39

/-- The escape character, a backslash. -/
def escapeChar : Char := Char.ofNat 92

/-- The comment marker character. -/
def commentChar : Char := '#'

/-- The space character. -/
def spaceChar : Char := Char.ofNat 32

/-- The newline character, the one whitespace character that ends a comment. -/
def newlineChar : Char := Char.ofNat 10

/-- NewDefaultClassifier + ClassifyRune: the Go code builds a map from each
named rune set to its class and looks characters up in it, with absent
characters mapping to the zero value unknownRuneClass.  The six sets are
pairwise disjoint, so the map lookup is this chain of membership tests.
The ordinary-character set `chars` is a parameter because it is the one
set on which the two source files differ. -/
def classifyRune (chars : String) (c : Char) : runeTokenClass :=
  if c ∈ chars.data then .charRuneClass
  else if c ∈ spaceRunes.data then .spaceRuneClass
  else if c = escapingQuoteChar then .escapingQuoteRuneClass
  else if c = nonEscapingQuoteChar then .nonEscapingQuoteRuneClass
  else if c = escapeChar then .escapeRuneClass
  else if c = commentChar then .commentRuneClass
  else .unknownRuneClass

/-- The scan errors produced by scanStream (the fmt.Errorf messages). -/
inductive ScanErr where
  | eofAfterEscape : ScanErr
  | eofExpectingQuote : ScanErr
  | unknownRune : Char → ScanErr
deriving DecidableEq

/-- Outcome of one scanStream call.  Go returns a pair (token pointer, error);
the three shapes that occur are: (nil, io.EOF); (nil, unknown-rune error);
and (token, err) from the final `return token, err`, where err is nil or one
of the two EOF scan errors.  `rest` is the input left unconsumed (after the
one-rune UnreadRune pushback, when it happened). -/
inductive ScanOut where
  | eofOut : ScanOut
  | errOut : ScanErr → ScanOut
  | tokOut : Token → Option ScanErr → List Char → ScanOut
deriving DecidableEq

/-- scanStream: the state machine of both Go files, one constructor per Go
switch case.  Arguments mirror the Go locals: the current state, the
tokenType and value accumulators, and the unread input.  An empty input list
is the io.EOF read, classified eofRuneClass; a classifier returning
eofRuneClass for a real character (impossible for the default classifiers)
takes the same branch the Go switch would. -/
def scanStream (cls : Char → runeTokenClass) :
    lexerState → TokenType → List Char → List Char → ScanOut
  | state, tokenType, value, [] =>
    match state with
    | .startState => .eofOut
    | .inWordState => .tokOut ⟨tokenType, String.mk value⟩ none []
    | .escapingState => .tokOut ⟨tokenType, String.mk value⟩ (some .eofAfterEscape) []
    | .escapingQuotedState => .tokOut ⟨tokenType, String.mk value⟩ (some .eofAfterEscape) []
    | .quotingEscapingState => .tokOut ⟨tokenType, String.mk value⟩ (some .eofExpectingQuote) []
    | .quotingState => .tokOut ⟨tokenType, String.mk value⟩ (some .eofExpectingQuote) []
    | .commentState => .tokOut ⟨tokenType, String.mk value⟩ none []
  | state, tokenType, value, c :: rest =>
    match state with
    | .startState =>
      match cls c with
      | .eofRuneClass => .eofOut
      | .charRuneClass => scanStream cls .inWordState .WordToken (value ++ [c]) rest
      | .spaceRuneClass => scanStream cls .startState tokenType value rest
      | .escapingQuoteRuneClass => scanStream cls .quotingEscapingState .WordToken value rest
      | .nonEscapingQuoteRuneClass => scanStream cls .quotingState .WordToken value rest
      | .escapeRuneClass => scanStream cls .escapingState .WordToken value rest
      | .commentRuneClass => scanStream cls .commentState .CommentToken value rest
      | .unknownRuneClass => .errOut (.unknownRune c)
    | .inWordState =>
      match cls c with
      | .eofRuneClass => .tokOut ⟨tokenType, String.mk value⟩ none rest
      | .charRuneClass => scanStream cls .inWordState tokenType (value ++ [c]) rest
      | .commentRuneClass => scanStream cls .inWordState tokenType (value ++ [c]) rest
      | .spaceRuneClass => .tokOut ⟨tokenType, String.mk value⟩ none (c :: rest)
      | .escapingQuoteRuneClass => scanStream cls .quotingEscapingState tokenType value rest
      | .nonEscapingQuoteRuneClass => scanStream cls .quotingState tokenType value rest
      | .escapeRuneClass => scanStream cls .escapingState tokenType value rest
      | .unknownRuneClass => .errOut (.unknownRune c)
    | .escapingState =>
      match cls c with
      | .eofRuneClass => .tokOut ⟨tokenType, String.mk value⟩ (some .eofAfterEscape) rest
      | .unknownRuneClass => .errOut (.unknownRune c)
      | _ => scanStream cls .inWordState tokenType (value ++ [c]) rest
    | .escapingQuotedState =>
      match cls c with
      | .eofRuneClass => .tokOut ⟨tokenType, String.mk value⟩ (some .eofAfterEscape) rest
      | .unknownRuneClass => .errOut (.unknownRune c)
      | _ => scanStream cls .quotingEscapingState tokenType (value ++ [c]) rest
    | .quotingEscapingState =>
      match cls c with
      | .eofRuneClass => .tokOut ⟨tokenType, String.mk value⟩ (some .eofExpectingQuote) rest
      | .escapingQuoteRuneClass => scanStream cls .inWordState tokenType value rest
      | .escapeRuneClass => scanStream cls .escapingQuotedState tokenType value rest
      | .unknownRuneClass => .errOut (.unknownRune c)
      | _ => scanStream cls .quotingEscapingState tokenType (value ++ [c]) rest
    | .quotingState =>
      match cls c with
      | .eofRuneClass => .tokOut ⟨tokenType, String.mk value⟩ (some .eofExpectingQuote) rest
      | .nonEscapingQuoteRuneClass => scanStream cls .inWordState tokenType value rest
      | .unknownRuneClass => .errOut (.unknownRune c)
      | _ => scanStream cls .quotingState tokenType (value ++ [c]) rest
    | .commentState =>
      match cls c with
      | .eofRuneClass => .tokOut ⟨tokenType, String.mk value⟩ none rest
      | .spaceRuneClass =>
        if c = newlineChar then .tokOut ⟨tokenType, String.mk value⟩ none rest
        else scanStream cls .commentState tokenType (value ++ [c]) rest
      | .unknownRuneClass => .errOut (.unknownRune c)
      | _ => scanStream cls .commentState tokenType (value ++ [c]) rest

/-- Tokenizer.Next / NextToken: one scanStream call from the initial locals
(state startState, zero-value tokenType, empty value buffer). -/
def tokenizerNext (cls : Char → runeTokenClass) (input : List Char) : ScanOut :=
  scanStream cls .startState .UnknownToken [] input

/-- Errors surfaced by Lexer.Next: a scan error forwarded from the tokenizer,
or the defensive unknown-token-type error of the Go default branch. -/
inductive LexErr where
  | scanErr : ScanErr → LexErr
  | unknownTokenType : TokenType → LexErr
deriving DecidableEq

/-- Outcome of one Lexer.Next / NextWord call. -/
inductive NextOut where
  | eofNext : NextOut
  | errNext : LexErr → NextOut
  | wordNext : String → List Char → NextOut
deriving DecidableEq

/-- The Lexer.Next loop with explicit fuel: call the tokenizer; forward any
error (a non-nil error from scanStream discards the accompanying token, as
the Go `if err != nil { return "", err }` does); return a Word token's value;
skip a Comment token and loop.  The zero-fuel answer is never reached when
fuel exceeds the input length (lexerNextF_stable below). -/
def lexerNextF (cls : Char → runeTokenClass) : Nat → List Char → NextOut
  | 0, _ => .eofNext
  | fuel + 1, input =>
    match tokenizerNext cls input with
    | .eofOut => .eofNext
    | .errOut e => .errNext (.scanErr e)
    | .tokOut _ (some e) _ => .errNext (.scanErr e)
    | .tokOut t none rest =>
      match t.tokenType with
      | .WordToken => .wordNext t.value rest
      | .CommentToken => lexerNextF cls fuel rest
      | tt => .errNext (.unknownTokenType tt)

/-- Lexer.Next / NextWord, with its always-sufficient fuel. -/
def lexerNext (cls : Char → runeTokenClass) (input : List Char) : NextOut :=
  lexerNextF cls (input.length + 1) input

/-- The Split loop with explicit fuel: collect words from Lexer.Next until
io.EOF (success: collected words, no error) or an error (collected words so
far, with the error). -/
def splitLoopF (cls : Char → runeTokenClass) :
    Nat → List Char → List String × Option LexErr
  | 0, _ => ([], none)
  | fuel + 1, input =>
    match lexerNext cls input with
    | .eofNext => ([], none)
    | .errNext e => ([], some e)
    | .wordNext w rest =>
      (w :: (splitLoopF cls fuel rest).1, (splitLoopF cls fuel rest).2)

/-- The Split loop on a character list, with its always-sufficient fuel. -/
def splitChars (cls : Char → runeTokenClass) (input : List Char) :
    List String × Option LexErr :=
  splitLoopF cls (input.length + 1) input

end Shlex

namespace ShlexGo

/-- NewDefaultClassifier of src/shlex.go: ordinary set RUNE_CHAR (no pipe). -/
def defaultClassifier : Char → Shlex.runeTokenClass :=
  Shlex.classifyRune Shlex.RUNE_CHAR

/-- Split of src/shlex.go: drive a Lexer built from the default classifier
over the string. -/
def Split (s : String) : List String × Option Shlex.LexErr :=
  Shlex.splitChars defaultClassifier s.data

end ShlexGo

namespace Part000

/-- NewDefaultClassifier of src/unnamed/part_000: ordinary set charRunes
(with pipe). -/
def defaultClassifier : Char → Shlex.runeTokenClass :=
  Shlex.classifyRune Shlex.charRunes

/-- Split of src/unnamed/part_000: same machine, with its default
classifier. -/
def Split (s : String) : List String × Option Shlex.LexErr :=
  Shlex.splitChars defaultClassifier s.data

end Part000

/-- The re-joining of words with single spaces used by the round-trip
property of spec section 8 (not itself part of the Go source). -/
def joinWords : List String → String
  | [] => ""
  | [w] => w
  | w :: ws => w ++ " " ++ joinWords ws

/-- A character that requires no quoting under the part_000 default
classifier: ordinary or whitespace. -/
def plainChar (c : Char) : Prop :=
  Part000.defaultClassifier c = .charRuneClass ∨
    Part000.defaultClassifier c = .spaceRuneClass

instance (c : Char) : Decidable (plainChar c) := by
  unfold plainChar; infer_instance

namespace Shlex

/-- The input left over by a completed scanStream call is a sublist of the
input it was given (each loop iteration consumes one character, except the
single UnreadRune pushback, which leaves the input unchanged). -/
theorem scanStream_tokOut_sublist (cls : Char → runeTokenClass) :
    ∀ (input : List Char) (st : lexerState) (tt : TokenType) (v : List Char)
      (t : Token) (e : Option ScanErr) (rest : List Char),
      scanStream cls st tt v input = .tokOut t e rest → rest.Sublist input := by
  intro input
  induction input with
  | nil =>
    intro st tt v t e rest h
    cases st <;> simp only [scanStream] at h <;> simp_all
  | cons c tail ih =>
    intro st tt v t e rest h
    cases st <;> cases hc : cls c <;> simp only [scanStream, hc] at h <;>
      try split at h
    all_goals first
      | simp_all [List.sublist_cons_self]
      | exact (ih _ _ _ _ _ _ h).trans (List.sublist_cons_self _ _)

/-- A scan that starts in startState and completes with a token consumed at
least one character. -/
theorem scanStream_start_tokOut_lt (cls : Char → runeTokenClass) :
    ∀ (input : List Char) (tt : TokenType) (v : List Char) (t : Token)
      (e : Option ScanErr) (rest : List Char),
      scanStream cls .startState tt v input = .tokOut t e rest →
      rest.length < input.length := by
  intro input
  induction input with
  | nil => intro tt v t e rest h; simp [scanStream] at h
  | cons c tail ih =>
    intro tt v t e rest h
    cases hc : cls c <;> simp only [scanStream, hc] at h
    all_goals first
      | exact absurd h (by simp)
      | exact Nat.lt_succ_of_lt (ih _ _ _ _ _ h)
      | exact Nat.lt_succ_of_le
          (scanStream_tokOut_sublist cls tail _ _ _ _ _ _ h).length_le

/-- Tokenizer.Next consumes at least one character whenever it produces a
token. -/
theorem tokenizerNext_tokOut_lt (cls : Char → runeTokenClass)
    {input : List Char} {t : Token} {e : Option ScanErr} {rest : List Char}
    (h : tokenizerNext cls input = .tokOut t e rest) :
    rest.length < input.length :=
  scanStream_start_tokOut_lt cls input _ _ t e rest h

/-- A non-nil error rides along with a token only out of the two escape
states and the two quoting states, at end of input. -/
theorem scanStream_tokOut_some (cls : Char → runeTokenClass) :
    ∀ (input : List Char) (st : lexerState) (tt : TokenType) (v : List Char)
      (t : Token) (e : ScanErr) (rest : List Char),
      scanStream cls st tt v input = .tokOut t (some e) rest →
      e = .eofAfterEscape ∨ e = .eofExpectingQuote := by
  intro input
  induction input with
  | nil =>
    intro st tt v t e rest h
    cases st <;> simp only [scanStream] at h <;> simp_all
  | cons c tail ih =>
    intro st tt v t e rest h
    cases st <;> cases hc : cls c <;> simp only [scanStream, hc] at h <;>
      try split at h
    all_goals first
      | simp_all
      | exact ih _ _ _ _ _ _ h

/-- Lexer.Next consumes at least one character whenever it produces a word,
at any fuel. -/
theorem lexerNextF_wordNext_lt (cls : Char → runeTokenClass) :
    ∀ (fuel : Nat) (input : List Char) (w : String) (rest : List Char),
      lexerNextF cls fuel input = .wordNext w rest → rest.length < input.length := by
  intro fuel
  induction fuel with
  | zero => intro input w rest h; simp [lexerNextF] at h
  | succ n ih =>
    intro input w rest h
    simp only [lexerNextF] at h
    cases htok : tokenizerNext cls input with
    | eofOut => rw [htok] at h; simp at h
    | errOut e => rw [htok] at h; simp at h
    | tokOut t oe rest2 =>
      rw [htok] at h
      cases oe with
      | some e => simp at h
      | none =>
        obtain ⟨ttype, tval⟩ := t
        cases ttype
        case UnknownToken => simp at h
        case SpaceToken => simp at h
        case WordToken =>
          simp at h
          obtain ⟨-, rfl⟩ := h
          exact tokenizerNext_tokOut_lt cls htok
        case CommentToken =>
          exact (ih rest2 w rest h).trans (tokenizerNext_tokOut_lt cls htok)

/-- Lexer.Next (at its standard fuel) consumes at least one character
whenever it produces a word. -/
theorem lexerNext_wordNext_lt (cls : Char → runeTokenClass)
    {input : List Char} {w : String} {rest : List Char}
    (h : lexerNext cls input = .wordNext w rest) : rest.length < input.length :=
  lexerNextF_wordNext_lt cls (input.length + 1) input w rest h

/-- Any two sufficient fuels give Lexer.Next the same answer. -/
theorem lexerNextF_stable (cls : Char → runeTokenClass) :
    ∀ (f1 : Nat) (input : List Char) (f2 : Nat),
      input.length < f1 → input.length < f2 →
      lexerNextF cls f1 input = lexerNextF cls f2 input := by
  intro f1
  induction f1 with
  | zero => intro input f2 h1 h2; exact absurd h1 (Nat.not_lt_zero _)
  | succ n ih =>
    intro input f2 h1 h2
    cases f2 with
    | zero => exact absurd h2 (Nat.not_lt_zero _)
    | succ m =>
      simp only [lexerNextF]
      cases htok : tokenizerNext cls input with
      | eofOut => rfl
      | errOut e => rfl
      | tokOut t oe rest =>
        cases oe with
        | some e => rfl
        | none =>
          obtain ⟨ttype, tval⟩ := t
          cases ttype
          case UnknownToken => rfl
          case WordToken => rfl
          case SpaceToken => rfl
          case CommentToken =>
            have hlt := tokenizerNext_tokOut_lt cls htok
            exact ih rest m (by omega) (by omega)

/-- Fuel above the input length is as good as the standard fuel. -/
theorem lexerNextF_eq_lexerNext (cls : Char → runeTokenClass)
    {fuel : Nat} {input : List Char} (h : input.length < fuel) :
    lexerNextF cls fuel input = lexerNext cls input :=
  lexerNextF_stable cls fuel input (input.length + 1) h (Nat.lt_succ_self _)

/-- Any two sufficient fuels give the Split loop the same answer. -/
theorem splitLoopF_stable (cls : Char → runeTokenClass) :
    ∀ (f1 : Nat) (input : List Char) (f2 : Nat),
      input.length < f1 → input.length < f2 →
      splitLoopF cls f1 input = splitLoopF cls f2 input := by
  intro f1
  induction f1 with
  | zero => intro input f2 h1 h2; exact absurd h1 (Nat.not_lt_zero _)
  | succ n ih =>
    intro input f2 h1 h2
    cases f2 with
    | zero => exact absurd h2 (Nat.not_lt_zero _)
    | succ m =>
      simp only [splitLoopF]
      cases hlex : lexerNext cls input with
      | eofNext => rfl
      | errNext e => rfl
      | wordNext w rest =>
        have hlt : rest.length < input.length := lexerNext_wordNext_lt cls hlex
        have heq : splitLoopF cls n rest = splitLoopF cls m rest :=
          ih rest m (by omega) (by omega)
        simp only [heq]

/-- Fuel above the input length is as good as the standard fuel. -/
theorem splitLoopF_eq_splitChars (cls : Char → runeTokenClass)
    {fuel : Nat} {input : List Char} (h : input.length < fuel) :
    splitLoopF cls fuel input = splitChars cls input :=
  splitLoopF_stable cls fuel input (input.length + 1) h (Nat.lt_succ_self _)

/-- Restatement of the sublist property at the Tokenizer.Next entry point. -/
theorem tokenizerNext_tokOut_sublist (cls : Char → runeTokenClass)
    {input : List Char} {t : Token} {e : Option ScanErr} {rest : List Char}
    (h : tokenizerNext cls input = .tokOut t e rest) : rest.Sublist input :=
  scanStream_tokOut_sublist cls input _ _ _ t e rest h

/-- The input left over by a word-producing Lexer.Next call is a sublist of
the input it was given. -/
theorem lexerNextF_wordNext_sublist (cls : Char → runeTokenClass) :
    ∀ (fuel : Nat) (input : List Char) (w : String) (rest : List Char),
      lexerNextF cls fuel input = .wordNext w rest → rest.Sublist input := by
  intro fuel
  induction fuel with
  | zero => intro input w rest h; simp [lexerNextF] at h
  | succ n ih =>
    intro input w rest h
    simp only [lexerNextF] at h
    cases htok : tokenizerNext cls input with
    | eofOut => rw [htok] at h; simp at h
    | errOut e => rw [htok] at h; simp at h
    | tokOut t oe rest2 =>
      rw [htok] at h
      cases oe with
      | some e => simp at h
      | none =>
        obtain ⟨ttype, tval⟩ := t
        cases ttype
        case UnknownToken => simp at h
        case SpaceToken => simp at h
        case WordToken =>
          simp at h
          obtain ⟨-, rfl⟩ := h
          exact tokenizerNext_tokOut_sublist cls htok
        case CommentToken =>
          exact (ih rest2 w rest h).trans (tokenizerNext_tokOut_sublist cls htok)

/-- Two classifiers that agree on every character of the input drive
scanStream to the same outcome. -/
theorem scanStream_congr (cls1 cls2 : Char → runeTokenClass) :
    ∀ (input : List Char) (st : lexerState) (tt : TokenType) (v : List Char),
      (∀ c ∈ input, cls1 c = cls2 c) →
      scanStream cls1 st tt v input = scanStream cls2 st tt v input := by
  intro input
  induction input with
  | nil => intro st tt v h; cases st <;> rfl
  | cons c tail ih =>
    intro st tt v h
    have hc2 : cls2 c = cls1 c := (h c (by simp)).symm
    have htail : ∀ x ∈ tail, cls1 x = cls2 x := fun x hx => h x (by simp [hx])
    cases st <;> cases hcc : cls1 c <;> rw [hcc] at hc2 <;>
      simp only [scanStream, hcc, hc2] <;>
      first
        | rfl
        | exact ih _ _ _ htail
        | (split <;> first | rfl | exact ih _ _ _ htail)

/-- Two classifiers that agree on every character of the input drive
Lexer.Next to the same outcome, at any fuel. -/
theorem lexerNextF_congr (cls1 cls2 : Char → runeTokenClass) :
    ∀ (fuel : Nat) (input : List Char), (∀ c ∈ input, cls1 c = cls2 c) →
      lexerNextF cls1 fuel input = lexerNextF cls2 fuel input := by
  intro fuel
  induction fuel with
  | zero => intro input h; rfl
  | succ n ih =>
    intro input h
    simp only [lexerNextF]
    have htok : tokenizerNext cls1 input = tokenizerNext cls2 input :=
      scanStream_congr cls1 cls2 input _ _ _ h
    rw [← htok]
    cases hto : tokenizerNext cls1 input with
    | eofOut => rfl
    | errOut e => rfl
    | tokOut t oe rest =>
      cases oe with
      | some e => rfl
      | none =>
        obtain ⟨ttype, tval⟩ := t
        cases ttype
        case UnknownToken => rfl
        case WordToken => rfl
        case SpaceToken => rfl
        case CommentToken =>
          have hsub : rest.Sublist input := tokenizerNext_tokOut_sublist cls1 hto
          exact ih rest (fun x hx => h x (hsub.subset hx))

/-- Two classifiers that agree on every character of the input drive the
Split loop to the same outcome, at any fuel. -/
theorem splitLoopF_congr (cls1 cls2 : Char → runeTokenClass) :
    ∀ (fuel : Nat) (input : List Char), (∀ c ∈ input, cls1 c = cls2 c) →
      splitLoopF cls1 fuel input = splitLoopF cls2 fuel input := by
  intro fuel
  induction fuel with
  | zero => intro input h; rfl
  | succ n ih =>
    intro input h
    simp only [splitLoopF]
    have hlex : lexerNext cls1 input = lexerNext cls2 input :=
      lexerNextF_congr cls1 cls2 (input.length + 1) input h
    rw [← hlex]
    cases hl : lexerNext cls1 input with
    | eofNext => rfl
    | errNext e => rfl
    | wordNext w rest =>
      have hsub : rest.Sublist input := lexerNextF_wordNext_sublist cls1 _ input w rest hl
      have heq := ih rest (fun x hx => h x (hsub.subset hx))
      simp only [heq]

end Shlex

/-- The two default classifiers agree on every character other than the
pipe: charRunes is RUNE_CHAR with a pipe appended and the other five rune
sets coincide. -/
theorem classifyRune_agree {c : Char} (h : c ≠ Char.ofNat 124) :
    ShlexGo.defaultClassifier c = Part000.defaultClassifier c := by
  have hdata : Shlex.charRunes.data = Shlex.RUNE_CHAR.data ++ [Char.ofNat 124] := by
    decide
  unfold ShlexGo.defaultClassifier Part000.defaultClassifier Shlex.classifyRune
  by_cases hc : c ∈ Shlex.RUNE_CHAR.data
  · have hc2 : c ∈ Shlex.charRunes.data := by
      rw [hdata]; exact List.mem_append_left _ hc
    simp [hc, hc2]
  · have hc2 : c ∉ Shlex.charRunes.data := by
      rw [hdata]; simp [hc, h]
    simp [hc, hc2]

/-- C10: a quoted span containing no characters yields one word that is the
empty string, with no error — both for the empty double-quoted span and the
empty single-quoted span. -/
theorem empty_quotes_give_empty_word :
    Part000.Split (String.mk [Shlex.escapingQuoteChar, Shlex.escapingQuoteChar]) =
      ([""], none) ∧
    Part000.Split (String.mk [Shlex.nonEscapingQuoteChar, Shlex.nonEscapingQuoteChar]) =
      ([""], none) :=
  ⟨by decide, by decide⟩

/-- C2 counterexample: in src/shlex.go's default classifier the pipe
character (code 124) is not in RUNE_CHAR, so it classifies as unknown, and
that file's Split fails on the input with a pipe instead of returning the
word. -/
theorem pipe_not_ordinary_shlexGo :
    ShlexGo.defaultClassifier (Char.ofNat 124) = .unknownRuneClass ∧
    ShlexGo.Split "a|b" = ([], some (.scanErr (.unknownRune (Char.ofNat 124)))) :=
  ⟨by decide, by decide⟩

/-- C2 (amended): the pipe character is ordinary in part_000's default
classifier, whose Split returns the single word for the pipe input; in
src/shlex.go's default classifier the pipe is unclassified (unknown) and
that file's Split does not return the word. -/
theorem pipe_classification_split :
    Part000.defaultClassifier (Char.ofNat 124) = .charRuneClass ∧
    Part000.Split "a|b" = (["a|b"], none) ∧
    ShlexGo.defaultClassifier (Char.ofNat 124) = .unknownRuneClass ∧
    ShlexGo.Split "a|b" ≠ (["a|b"], none) :=
  ⟨by decide, by decide, by decide, by decide⟩

/-- C3 counterexample: the two Split entry points disagree on the input
with a pipe. -/
theorem split_differ_on_pipe : ShlexGo.Split "a|b" ≠ Part000.Split "a|b" := by
  decide

/-- C3 (amended): on every input string that contains no pipe character,
the Split of src/shlex.go and the Split of src/unnamed/part_000 return the
same words and the same error report. -/
theorem split_agree_on_pipe_free (s : String) (h : Char.ofNat 124 ∉ s.data) :
    ShlexGo.Split s = Part000.Split s := by
  have hagree : ∀ c ∈ s.data, ShlexGo.defaultClassifier c = Part000.defaultClassifier c :=
    fun c hc => classifyRune_agree (fun he => h (he ▸ hc))
  unfold ShlexGo.Split Part000.Split Shlex.splitChars
  exact Shlex.splitLoopF_congr _ _ (s.data.length + 1) s.data hagree

/-- C3 witness: the two Splits agree on a concrete pipe-free input. -/
theorem split_agree_on_pipe_free_witness :
    ShlexGo.Split "one \"two three\" four" = Part000.Split "one \"two three\" four" :=
  split_agree_on_pipe_free "one \"two three\" four" (by decide)

/-- C1 counterexample: on the input that hits end of input inside double
quotes, Tokenizer.Next does return the partial token: the token slot of the
returned pair holds the accumulated characters (a non-empty word text)
alongside the scan error. -/
theorem scanError_partial_token_returned :
    Shlex.tokenizerNext Part000.defaultClassifier (String.data "\"ab") =
      .tokOut ⟨.WordToken, "ab"⟩ (some .eofExpectingQuote) [] ∧
    ("ab" : String) ≠ "" :=
  ⟨by decide, by decide⟩

/-- C1 (amended): whenever a scan ends with a token carrying a non-nil
error — which happens exactly for the two end-of-input scan errors, after
an escape character or inside either quoting state — the error is reported
and the partial token riding in the pair is discarded by Lexer.Next, so the
accumulated characters are never surfaced as a word. -/
theorem scanError_at_eof_discards_partial_word
    (cls : Char → Shlex.runeTokenClass) (input : List Char)
    (t : Shlex.Token) (e : Shlex.ScanErr) (rest : List Char)
    (h : Shlex.tokenizerNext cls input = .tokOut t (some e) rest) :
    (e = .eofAfterEscape ∨ e = .eofExpectingQuote) ∧
    Shlex.lexerNext cls input = .errNext (.scanErr e) := by
  refine ⟨Shlex.scanStream_tokOut_some cls input _ _ _ t e rest h, ?_⟩
  unfold Shlex.lexerNext
  simp only [Shlex.lexerNextF]
  rw [h]

/-- C1 witness: the amended statement at the concrete input whose last
character is an escape. -/
theorem scanError_at_eof_discards_partial_word_witness :
    (Shlex.ScanErr.eofAfterEscape = .eofAfterEscape ∨
      Shlex.ScanErr.eofAfterEscape = .eofExpectingQuote) ∧
    Shlex.lexerNext Part000.defaultClassifier (String.data "x\\") =
      .errNext (.scanErr .eofAfterEscape) :=
  scanError_at_eof_discards_partial_word Part000.defaultClassifier (String.data "x\\")
    ⟨.WordToken, "x"⟩ .eofAfterEscape [] (by decide)

/-- C4: Split returns the complete words produced before a scan failure, in
order, together with the error.  Concretely, a trailing escape yields the
error with no truncated word, prior complete words are kept, and in
general the Split loop forwards an erroring Lexer.Next as the collected
error and prepends each produced word to the Split of the remaining
input. -/
theorem split_keeps_words_before_error :
    Part000.Split "trailing\\" = ([], some (.scanErr .eofAfterEscape)) ∧
    Part000.Split "one two trailing\\" = (["one", "two"], some (.scanErr .eofAfterEscape)) ∧
    (∀ (input : List Char) (e : Shlex.LexErr),
      Shlex.lexerNext Part000.defaultClassifier input = .errNext e →
      Shlex.splitChars Part000.defaultClassifier input = ([], some e)) ∧
    (∀ (input : List Char) (w : String) (rest : List Char),
      Shlex.lexerNext Part000.defaultClassifier input = .wordNext w rest →
      Shlex.splitChars Part000.defaultClassifier input =
        (w :: (Shlex.splitChars Part000.defaultClassifier rest).1,
          (Shlex.splitChars Part000.defaultClassifier rest).2)) := by
  refine ⟨by decide, by decide, ?_, ?_⟩
  · intro input e h
    unfold Shlex.splitChars
    simp only [Shlex.splitLoopF]
    rw [h]
  · intro input w rest h
    have hlt := Shlex.lexerNext_wordNext_lt Part000.defaultClassifier h
    unfold Shlex.splitChars
    simp only [Shlex.splitLoopF]
    rw [h]
    simp only [Shlex.splitLoopF_eq_splitChars Part000.defaultClassifier hlt]
    rfl

/-- C4 witness: the word-prepending clause at a concrete input. -/
theorem split_keeps_words_before_error_witness :
    Shlex.splitChars Part000.defaultClassifier (String.data "a b") =
      ("a" :: (Shlex.splitChars Part000.defaultClassifier (String.data " b")).1,
        (Shlex.splitChars Part000.defaultClassifier (String.data " b")).2) :=
  split_keeps_words_before_error.2.2.2 (String.data "a b") "a" (String.data " b")
    (by decide)

/-- C5: in the Comment state exactly the newline finalizes the Comment
token without appending the newline, while every other whitespace
character is appended as literal comment text; and the comment line is
excluded from Split output. -/
theorem comment_ends_only_at_newline :
    Part000.Split "# a comment\nword" = (["word"], none) ∧
    (∀ (tt : Shlex.TokenType) (v rest : List Char),
      Shlex.scanStream Part000.defaultClassifier .commentState tt v
          (Shlex.newlineChar :: rest) =
        .tokOut ⟨tt, String.mk v⟩ none rest) ∧
    (∀ (tt : Shlex.TokenType) (v rest : List Char) (c : Char),
      Part000.defaultClassifier c = .spaceRuneClass → c ≠ Shlex.newlineChar →
      Shlex.scanStream Part000.defaultClassifier .commentState tt v (c :: rest) =
        Shlex.scanStream Part000.defaultClassifier .commentState tt (v ++ [c]) rest) := by
  refine ⟨by decide, ?_, ?_⟩
  · intro tt v rest
    simp only [Shlex.scanStream,
      show Part000.defaultClassifier Shlex.newlineChar = .spaceRuneClass from by decide]
    rw [if_true]
  · intro tt v rest c hc hne
    simp only [Shlex.scanStream, hc]
    rw [if_neg hne]

/-- C5 witness: a space inside a comment is appended literally. -/
theorem comment_ends_only_at_newline_witness :
    Shlex.scanStream Part000.defaultClassifier .commentState .CommentToken []
        (Shlex.spaceChar :: []) =
      Shlex.scanStream Part000.defaultClassifier .commentState .CommentToken
        ([] ++ [Shlex.spaceChar]) [] :=
  comment_ends_only_at_newline.2.2 .CommentToken [] [] Shlex.spaceChar
    (by decide) (by decide)

/-- C6: double-quote delimiters are never appended to the word text: the
opening quote from Start or InWord and the closing quote from
QuotingEscaping all change state without touching the value buffer, and
the bracketing example splits with the quotes stripped and the inner
space kept. -/
theorem double_quote_delimiters_stripped :
    Part000.Split "one \"two three\" four" = (["one", "two three", "four"], none) ∧
    (∀ (cls : Char → Shlex.runeTokenClass) (tt : Shlex.TokenType)
      (v rest : List Char) (c : Char), cls c = .escapingQuoteRuneClass →
      Shlex.scanStream cls .startState tt v (c :: rest) =
        Shlex.scanStream cls .quotingEscapingState .WordToken v rest) ∧
    (∀ (cls : Char → Shlex.runeTokenClass) (tt : Shlex.TokenType)
      (v rest : List Char) (c : Char), cls c = .escapingQuoteRuneClass →
      Shlex.scanStream cls .inWordState tt v (c :: rest) =
        Shlex.scanStream cls .quotingEscapingState tt v rest) ∧
    (∀ (cls : Char → Shlex.runeTokenClass) (tt : Shlex.TokenType)
      (v rest : List Char) (c : Char), cls c = .escapingQuoteRuneClass →
      Shlex.scanStream cls .quotingEscapingState tt v (c :: rest) =
        Shlex.scanStream cls .inWordState tt v rest) := by
  refine ⟨by decide, ?_, ?_, ?_⟩ <;>
    (intro cls tt v rest c hc; simp only [Shlex.scanStream, hc])

/-- C6 witness: the closing-quote transition at a concrete configuration. -/
theorem double_quote_delimiters_stripped_witness :
    Shlex.scanStream Part000.defaultClassifier .quotingEscapingState .WordToken
        (String.data "x") (Shlex.escapingQuoteChar :: []) =
      Shlex.scanStream Part000.defaultClassifier .inWordState .WordToken
        (String.data "x") [] :=
  double_quote_delimiters_stripped.2.2.2 Part000.defaultClassifier .WordToken
    (String.data "x") [] Shlex.escapingQuoteChar (by decide)

/-- C7: adjacent quoted and unquoted segments concatenate into one word,
and inside single quotes every character that is not the closing quote
(and is classified) is appended literally — including backslash —
while the closing quote returns to InWord without being appended. -/
theorem single_quotes_literal_concat :
    Part000.Split (String.mk
        ['a', Shlex.nonEscapingQuoteChar, 'b', Shlex.nonEscapingQuoteChar, 'c']) =
      (["abc"], none) ∧
    Part000.Split (String.mk
        [Shlex.nonEscapingQuoteChar, 'a', Shlex.escapeChar, 'b',
          Shlex.nonEscapingQuoteChar]) =
      ([String.mk ['a', Shlex.escapeChar, 'b']], none) ∧
    (∀ (cls : Char → Shlex.runeTokenClass) (tt : Shlex.TokenType)
      (v rest : List Char) (c : Char),
      cls c ≠ .nonEscapingQuoteRuneClass → cls c ≠ .unknownRuneClass →
      cls c ≠ .eofRuneClass →
      Shlex.scanStream cls .quotingState tt v (c :: rest) =
        Shlex.scanStream cls .quotingState tt (v ++ [c]) rest) ∧
    (∀ (cls : Char → Shlex.runeTokenClass) (tt : Shlex.TokenType)
      (v rest : List Char) (c : Char), cls c = .nonEscapingQuoteRuneClass →
      Shlex.scanStream cls .quotingState tt v (c :: rest) =
        Shlex.scanStream cls .inWordState tt v rest) := by
  refine ⟨by decide, by decide, ?_, ?_⟩
  · intro cls tt v rest c h1 h2 h3
    cases hc : cls c
    case nonEscapingQuoteRuneClass => exact absurd hc h1
    case unknownRuneClass => exact absurd hc h2
    case eofRuneClass => exact absurd hc h3
    all_goals simp only [Shlex.scanStream, hc]
  · intro cls tt v rest c hc
    simp only [Shlex.scanStream, hc]

/-- C7 witness: a backslash inside single quotes is appended literally. -/
theorem single_quotes_literal_concat_witness :
    Shlex.scanStream Part000.defaultClassifier .quotingState .WordToken []
        (Shlex.escapeChar :: []) =
      Shlex.scanStream Part000.defaultClassifier .quotingState .WordToken
        ([] ++ [Shlex.escapeChar]) [] :=
  single_quotes_literal_concat.2.2.1 Part000.defaultClassifier .WordToken [] []
    Shlex.escapeChar (by decide) (by decide) (by decide)

/-- C8: a comment-marker character met in the InWord state is appended to
the word as literal text (comments only open at a word boundary), and the
mid-word hash example yields the single word with the hash inside. -/
theorem hash_literal_inside_word :
    Part000.Split "a#b" = (["a#b"], none) ∧
    (∀ (cls : Char → Shlex.runeTokenClass) (tt : Shlex.TokenType)
      (v rest : List Char) (c : Char), cls c = .commentRuneClass →
      Shlex.scanStream cls .inWordState tt v (c :: rest) =
        Shlex.scanStream cls .inWordState tt (v ++ [c]) rest) := by
  refine ⟨by decide, ?_⟩
  intro cls tt v rest c hc
  simp only [Shlex.scanStream, hc]

/-- C8 witness: the hash-append transition at a concrete configuration. -/
theorem hash_literal_inside_word_witness :
    Shlex.scanStream Part000.defaultClassifier .inWordState .WordToken
        (String.data "a") (Shlex.commentChar :: String.data "b") =
      Shlex.scanStream Part000.defaultClassifier .inWordState .WordToken
        (String.data "a" ++ [Shlex.commentChar]) (String.data "b") :=
  hash_literal_inside_word.2 Part000.defaultClassifier .WordToken
    (String.data "a") (String.data "b") Shlex.commentChar (by decide)

/-- The Split loop on an exhausted input returns no words and no error,
whatever the fuel. -/
theorem splitLoopF_nil (cls : Char → Shlex.runeTokenClass) :
    ∀ fuel : Nat, Shlex.splitLoopF cls fuel [] = ([], none) := by
  intro fuel
  cases fuel with
  | zero => rfl
  | succ n => rfl

/-- On input made only of ordinary and whitespace characters, a scan from
InWord consumes the longest ordinary run, leaves the terminating
whitespace (if any) unread, and appends the run to the value buffer. -/
theorem scanStream_inWord_plain :
    ∀ (input : List Char) (tt : Shlex.TokenType) (v : List Char),
      (∀ c ∈ input, plainChar c) →
      ∃ w rest,
        Shlex.scanStream Part000.defaultClassifier .inWordState tt v input =
          .tokOut ⟨tt, String.mk (v ++ w)⟩ none rest ∧
        (∀ c ∈ w, Part000.defaultClassifier c = .charRuneClass) ∧
        input = w ++ rest ∧
        (rest = [] ∨ ∃ c2 r2, rest = c2 :: r2 ∧
          Part000.defaultClassifier c2 = .spaceRuneClass) := by
  intro input
  induction input with
  | nil =>
    intro tt v h
    refine ⟨[], [], ?_, by simp, by simp, Or.inl rfl⟩
    simp [Shlex.scanStream]
  | cons c tail ih =>
    intro tt v h
    rcases h c (by simp) with hc | hc
    · obtain ⟨w, rest, hscan, hw, hsplit, hrest⟩ :=
        ih tt (v ++ [c]) (fun x hx => h x (by simp [hx]))
      refine ⟨c :: w, rest, ?_, ?_, by simp [hsplit], hrest⟩
      · simp only [Shlex.scanStream, hc]
        rw [hscan]
        simp
      · intro x hx
        rcases List.mem_cons.mp hx with rfl | hx
        · exact hc
        · exact hw x hx
    · refine ⟨[], c :: tail, ?_, by simp, by simp, Or.inr ⟨c, tail, rfl, hc⟩⟩
      simp [Shlex.scanStream, hc]

/-- On input made only of ordinary and whitespace characters, a scan from
Start either hits end of input (after whitespace only) or produces a
non-empty Word token of ordinary characters, leaving plain input behind. -/
theorem scanStream_start_plain :
    ∀ (input : List Char) (tt : Shlex.TokenType) (v : List Char),
      (∀ c ∈ input, plainChar c) →
      Shlex.scanStream Part000.defaultClassifier .startState tt v input = .eofOut ∨
      ∃ w rest,
        Shlex.scanStream Part000.defaultClassifier .startState tt v input =
          .tokOut ⟨.WordToken, String.mk (v ++ w)⟩ none rest ∧
        w ≠ [] ∧ (∀ c ∈ w, Part000.defaultClassifier c = .charRuneClass) ∧
        (∀ c ∈ rest, plainChar c) ∧ rest.length < input.length := by
  intro input
  induction input with
  | nil => intro tt v h; exact Or.inl rfl
  | cons c tail ih =>
    intro tt v h
    have htail : ∀ x ∈ tail, plainChar x := fun x hx => h x (by simp [hx])
    rcases h c (by simp) with hc | hc
    · right
      obtain ⟨w, rest, hscan, hw, hsplit, -⟩ :=
        scanStream_inWord_plain tail .WordToken (v ++ [c]) htail
      refine ⟨c :: w, rest, ?_, by simp, ?_, ?_, ?_⟩
      · simp only [Shlex.scanStream, hc]
        rw [hscan]
        simp
      · intro x hx
        rcases List.mem_cons.mp hx with rfl | hx
        · exact hc
        · exact hw x hx
      · intro x hx
        exact htail x (by rw [hsplit]; exact List.mem_append_right _ hx)
      · have hlen := congrArg List.length hsplit
        simp only [List.length_append] at hlen
        simp only [List.length_cons]
        omega
    · have hstep :
          Shlex.scanStream Part000.defaultClassifier .startState tt v (c :: tail) =
            Shlex.scanStream Part000.defaultClassifier .startState tt v tail := by
        simp only [Shlex.scanStream, hc]
      rcases ih tt v htail with he | ⟨w, rest, hscan, hw, hwc, hrp, hlen⟩
      · exact Or.inl (hstep.trans he)
      · refine Or.inr ⟨w, rest, hstep.trans hscan, hw, hwc, hrp, ?_⟩
        simp only [List.length_cons]
        omega

/-- On plain input, Lexer.Next reports end of stream or a non-empty word of
ordinary characters, never an error, and leaves plain input behind. -/
theorem lexerNext_plain (input : List Char) (h : ∀ c ∈ input, plainChar c) :
    Shlex.lexerNext Part000.defaultClassifier input = .eofNext ∨
    ∃ w rest,
      Shlex.lexerNext Part000.defaultClassifier input = .wordNext (String.mk w) rest ∧
      w ≠ [] ∧ (∀ c ∈ w, Part000.defaultClassifier c = .charRuneClass) ∧
      (∀ c ∈ rest, plainChar c) := by
  unfold Shlex.lexerNext
  simp only [Shlex.lexerNextF, Shlex.tokenizerNext]
  rcases scanStream_start_plain input .UnknownToken [] h with
    he | ⟨w, rest, hs, hw, hwc, hrp, -⟩
  · rw [he]
    exact Or.inl rfl
  · rw [hs]
    exact Or.inr ⟨w, rest, by simp, hw, hwc, hrp⟩

/-- On plain input, the Split loop succeeds and every collected word is
non-empty and made of ordinary characters. -/
theorem splitLoopF_plain :
    ∀ (fuel : Nat) (input : List Char), input.length < fuel →
      (∀ c ∈ input, plainChar c) →
      (Shlex.splitLoopF Part000.defaultClassifier fuel input).2 = none ∧
      ∀ w ∈ (Shlex.splitLoopF Part000.defaultClassifier fuel input).1,
        w.data ≠ [] ∧ ∀ c ∈ w.data, Part000.defaultClassifier c = .charRuneClass := by
  intro fuel
  induction fuel with
  | zero => intro input h1 h2; exact absurd h1 (Nat.not_lt_zero _)
  | succ n ih =>
    intro input h1 h2
    simp only [Shlex.splitLoopF]
    rcases lexerNext_plain input h2 with he | ⟨w, rest, hl, hw, hwc, hrp⟩
    · rw [he]
      exact ⟨rfl, by simp⟩
    · have hlt := Shlex.lexerNext_wordNext_lt Part000.defaultClassifier hl
      obtain ⟨ih1, ih2⟩ := ih rest (by omega) hrp
      rw [hl]
      refine ⟨by simpa using ih1, ?_⟩
      intro w2 hw2
      simp only [List.mem_cons] at hw2
      rcases hw2 with rfl | hw2
      · exact ⟨by simpa using hw, by simpa using hwc⟩
      · exact ih2 w2 hw2

/-- Scanning from InWord through a run of ordinary characters followed by
nothing or by a space appends the run and leaves the space unread. -/
theorem scanStream_inWord_run :
    ∀ (wd : List Char) (tt : Shlex.TokenType) (v r : List Char),
      (∀ c ∈ wd, Part000.defaultClassifier c = .charRuneClass) →
      (r = [] ∨ ∃ r2, r = Shlex.spaceChar :: r2) →
      Shlex.scanStream Part000.defaultClassifier .inWordState tt v (wd ++ r) =
        .tokOut ⟨tt, String.mk (v ++ wd)⟩ none r := by
  intro wd
  induction wd with
  | nil =>
    intro tt v r hwd hr
    rcases hr with rfl | ⟨r2, rfl⟩
    · simp [Shlex.scanStream]
    · simp [Shlex.scanStream,
        show Part000.defaultClassifier Shlex.spaceChar = .spaceRuneClass from by decide]
  | cons c wd2 ih =>
    intro tt v r hwd hr
    have hc : Part000.defaultClassifier c = .charRuneClass := hwd c (by simp)
    simp only [List.cons_append, Shlex.scanStream, hc]
    rw [List.append_eq]
    rw [ih tt (v ++ [c]) r (fun x hx => hwd x (by simp [hx])) hr]
    simp

/-- Scanning from Start over a non-empty run of ordinary characters
followed by nothing or by a space yields that word. -/
theorem scanStream_start_run (wd : List Char) (tt : Shlex.TokenType)
    (v r : List Char)
    (hwd : ∀ c ∈ wd, Part000.defaultClassifier c = .charRuneClass)
    (hne : wd ≠ []) (hr : r = [] ∨ ∃ r2, r = Shlex.spaceChar :: r2) :
    Shlex.scanStream Part000.defaultClassifier .startState tt v (wd ++ r) =
      .tokOut ⟨.WordToken, String.mk (v ++ wd)⟩ none r := by
  cases wd with
  | nil => exact absurd rfl hne
  | cons c wd2 =>
    have hc := hwd c (by simp)
    simp only [List.cons_append, Shlex.scanStream, hc]
    rw [List.append_eq]
    rw [scanStream_inWord_run wd2 .WordToken (v ++ [c]) r
      (fun x hx => hwd x (by simp [hx])) hr]
    simp

/-- Lexer.Next over a non-empty ordinary word followed by nothing or a
space returns exactly that word. -/
theorem lexerNext_run (w : String) (r : List Char) (hw : w.data ≠ [])
    (hwc : ∀ c ∈ w.data, Part000.defaultClassifier c = .charRuneClass)
    (hr : r = [] ∨ ∃ r2, r = Shlex.spaceChar :: r2) :
    Shlex.lexerNext Part000.defaultClassifier (w.data ++ r) = .wordNext w r := by
  unfold Shlex.lexerNext
  simp only [Shlex.lexerNextF, Shlex.tokenizerNext]
  rw [scanStream_start_run w.data .UnknownToken [] r hwc hw hr]
  simp

/-- A leading space is consumed silently by the tokenizer. -/
theorem tokenizerNext_space (r : List Char) :
    Shlex.tokenizerNext Part000.defaultClassifier (Shlex.spaceChar :: r) =
      Shlex.tokenizerNext Part000.defaultClassifier r := by
  unfold Shlex.tokenizerNext
  simp only [Shlex.scanStream,
    show Part000.defaultClassifier Shlex.spaceChar = .spaceRuneClass from by decide]

/-- A leading space is consumed silently by the lexer. -/
theorem lexerNext_space (r : List Char) :
    Shlex.lexerNext Part000.defaultClassifier (Shlex.spaceChar :: r) =
      Shlex.lexerNext Part000.defaultClassifier r := by
  unfold Shlex.lexerNext
  simp only [Shlex.lexerNextF]
  rw [tokenizerNext_space]
  cases htok : Shlex.tokenizerNext Part000.defaultClassifier r with
  | eofOut => rfl
  | errOut e => rfl
  | tokOut t oe rest =>
    cases oe with
    | some e => rfl
    | none =>
      obtain ⟨ttype, tval⟩ := t
      cases ttype
      case UnknownToken => rfl
      case WordToken => rfl
      case SpaceToken => rfl
      case CommentToken =>
        have hlt := Shlex.tokenizerNext_tokOut_lt Part000.defaultClassifier htok
        exact Shlex.lexerNextF_stable Part000.defaultClassifier
          ((Shlex.spaceChar :: r).length) rest r.length
          (by simp only [List.length_cons]; omega) (by omega)

/-- One-step unfolding of the Split loop at successor fuel. -/
theorem splitLoopF_succ (cls : Char → Shlex.runeTokenClass) (n : Nat)
    (input : List Char) :
    Shlex.splitLoopF cls (n + 1) input =
      match Shlex.lexerNext cls input with
      | .eofNext => ([], none)
      | .errNext e => ([], some e)
      | .wordNext w rest =>
        (w :: (Shlex.splitLoopF cls n rest).1, (Shlex.splitLoopF cls n rest).2) :=
  rfl

/-- A leading space is consumed silently by Split. -/
theorem splitChars_space (r : List Char) :
    Shlex.splitChars Part000.defaultClassifier (Shlex.spaceChar :: r) =
      Shlex.splitChars Part000.defaultClassifier r := by
  unfold Shlex.splitChars
  rw [show (Shlex.spaceChar :: r).length = r.length + 1 from rfl]
  rw [splitLoopF_succ, splitLoopF_succ]
  rw [lexerNext_space]
  cases hl : Shlex.lexerNext Part000.defaultClassifier r with
  | eofNext => rfl
  | errNext e => rfl
  | wordNext w rest =>
    have hlt := Shlex.lexerNext_wordNext_lt Part000.defaultClassifier hl
    show (w :: (Shlex.splitLoopF Part000.defaultClassifier (r.length + 1) rest).1,
        (Shlex.splitLoopF Part000.defaultClassifier (r.length + 1) rest).2) =
      (w :: (Shlex.splitLoopF Part000.defaultClassifier r.length rest).1,
        (Shlex.splitLoopF Part000.defaultClassifier r.length rest).2)
    rw [@Shlex.splitLoopF_eq_splitChars Part000.defaultClassifier
        (r.length + 1) rest (by omega),
      @Shlex.splitLoopF_eq_splitChars Part000.defaultClassifier r.length rest
        (by omega)]

/-- Splitting the space-joined list of non-empty ordinary words recovers
exactly those words, with no error. -/
theorem splitChars_join :
    ∀ (ws : List String),
      (∀ w ∈ ws, w.data ≠ [] ∧
        ∀ c ∈ w.data, Part000.defaultClassifier c = .charRuneClass) →
      Shlex.splitChars Part000.defaultClassifier (joinWords ws).data = (ws, none) := by
  intro ws
  induction ws with
  | nil => intro h; decide
  | cons w ws2 ih =>
    intro h
    obtain ⟨hw, hwc⟩ := h w (by simp)
    have hws2 : ∀ x ∈ ws2, x.data ≠ [] ∧
        ∀ c ∈ x.data, Part000.defaultClassifier c = .charRuneClass :=
      fun x hx => h x (by simp [hx])
    cases ws2 with
    | nil =>
      have hj : joinWords [w] = w := rfl
      rw [hj]
      unfold Shlex.splitChars
      simp only [Shlex.splitLoopF]
      have hlex : Shlex.lexerNext Part000.defaultClassifier w.data = .wordNext w [] := by
        have hrun := lexerNext_run w [] hw hwc (Or.inl rfl)
        simpa using hrun
      simp only [hlex]
      rw [splitLoopF_nil]
    | cons w2 ws3 =>
      have hj : joinWords (w :: w2 :: ws3) = w ++ " " ++ joinWords (w2 :: ws3) := rfl
      rw [hj]
      have happ : ∀ a b : String, (a ++ b).data = a.data ++ b.data := fun a b => rfl
      have hdata : (w ++ " " ++ joinWords (w2 :: ws3)).data =
          w.data ++ Shlex.spaceChar :: (joinWords (w2 :: ws3)).data := by
        rw [happ, happ]
        rw [show (" " : String).data = [Shlex.spaceChar] from by decide]
        rw [List.append_assoc]
        rfl
      rw [hdata]
      unfold Shlex.splitChars
      simp only [Shlex.splitLoopF]
      have hlex := lexerNext_run w (Shlex.spaceChar :: (joinWords (w2 :: ws3)).data)
        hw hwc (Or.inr ⟨_, rfl⟩)
      simp only [hlex]
      have hfuel : (Shlex.spaceChar :: (joinWords (w2 :: ws3)).data).length <
          (w.data ++ Shlex.spaceChar :: (joinWords (w2 :: ws3)).data).length := by
        have hpos : 0 < w.data.length := List.length_pos.mpr hw
        simp only [List.length_append, List.length_cons]
        omega
      rw [@Shlex.splitLoopF_eq_splitChars Part000.defaultClassifier
        ((w.data ++ Shlex.spaceChar :: (joinWords (w2 :: ws3)).data).length)
        (Shlex.spaceChar :: (joinWords (w2 :: ws3)).data) hfuel]
      rw [splitChars_space]
      rw [ih hws2]

/-- C9: for every input made only of ordinary and whitespace characters
(so containing no character that would require quoting), split succeeds,
and splitting the space-joined words of the first split returns exactly
the result of the first split. -/
theorem split_join_roundtrip (s : String) (h : ∀ c ∈ s.data, plainChar c) :
    (Part000.Split s).2 = none ∧
    Part000.Split (joinWords (Part000.Split s).1) = Part000.Split s := by
  have hp := splitLoopF_plain (s.data.length + 1) s.data (Nat.lt_succ_self _) h
  have hp1 : (Part000.Split s).2 = none := hp.1
  have hp2 : ∀ w ∈ (Part000.Split s).1, w.data ≠ [] ∧
      ∀ c ∈ w.data, Part000.defaultClassifier c = .charRuneClass := hp.2
  refine ⟨hp1, ?_⟩
  have hjoin : Part000.Split (joinWords (Part000.Split s).1) =
      ((Part000.Split s).1, none) :=
    splitChars_join (Part000.Split s).1 hp2
  rw [hjoin]
  exact Prod.ext rfl hp1.symm

/-- C9 witness: the round trip at a concrete plain input. -/
theorem split_join_roundtrip_witness :
    (Part000.Split "ab cd").2 = none ∧
    Part000.Split (joinWords (Part000.Split "ab cd").1) = Part000.Split "ab cd" :=
  split_join_roundtrip "ab cd" (by decide)
